import Mathlib

/-!
Verification development for the Moulder interactive polygon editor
(`src/moulder/moulder.py`).

The editor keeps an ordered list of polygons (each stored as the *closed*
vertex array used by `matplotlib.patches.Polygon`, i.e. the first vertex is
duplicated at the end — the "seam"), one density per polygon, a current
selection (`_ipoly`, `_ivert`), a drawing buffer `_xy`, and mode flags
(`_drawing`, `_add_vertex`).  Pointer and keyboard events mutate this state.

Model-space coordinates are rationals (`Pt`).  Screen-space quantities
(the hit test works on projected pixel coordinates, and the vertex-insertion
rule takes `arccos` of normalised dot products) live in `ℝ`.

numpy's `min`, `argmin` and `argmax` over 1-d arrays are modelled by
`listMin`, `argminIdx` and `argmaxIdx`; `argmin`/`argmax` return the *first*
index attaining the extremum, as numpy does.
-/

/-- Model-space point: an (x, z) coordinate pair. -/
abbrev Pt := ℚ × ℚ

/-- Screen-space point (post-projection pixel coordinates). -/
abbrev Pt2 := ℝ × ℝ

/-- numpy `arr.min()` over a list of reals (unused default 0 on `[]`;
the source only calls it on nonempty arrays). -/
noncomputable def listMin : List ℝ → ℝ
  | [] => 0
  | [a] => a
  | a :: b :: l => min a (listMin (b :: l))

/-- numpy `arr.argmin()`: the first index attaining the minimum. -/
noncomputable def argminIdx : List ℝ → ℕ
  | [] => 0
  | a :: l =>
      haveI := Classical.propDecidable (∀ b ∈ l, a ≤ b)
      if ∀ b ∈ l, a ≤ b then 0 else argminIdx l + 1

/-- numpy `arr.argmax()`: the first index attaining the maximum. -/
noncomputable def argmaxIdx : List ℝ → ℕ
  | [] => 0
  | a :: l =>
      haveI := Classical.propDecidable (∀ b ∈ l, b ≤ a)
      if ∀ b ∈ l, b ≤ a then 0 else argmaxIdx l + 1

/-! ## Hit testing (`Moulder._get_polygon_vertice_id`)

The hit test works in screen space: each polygon's closed vertex array is
projected to pixel coordinates (`poly.get_transform().transform(poly.xy)`),
and the event carries its pixel position (`event.x`, `event.y`).  The
embedding below therefore takes the list of *projected* vertex arrays and
the projected event point.  The point-in-polygon test
(`poly.contains_point`, a matplotlib path query, external to the repo) is
an abstract boolean parameter `containsPt`. -/

/-- `Moulder.epsilon`: the pixel tolerance for clicks on vertices. -/
noncomputable def epsilon : ℝ := 5

/-- Screen-space Euclidean distance
`numpy.sqrt((x - event.x)**2 + (y - event.y)**2)` from event point `e`
to a projected vertex `q`. -/
noncomputable def vdist (e q : Pt2) : ℝ :=
  Real.sqrt ((q.1 - e.1) ^ 2 + (q.2 - e.2) ^ 2)

/-- Per-polygon minimal vertex distances: the `distances` list. -/
noncomputable def polyMins (e : Pt2) (polys : List (List Pt2)) : List ℝ :=
  polys.map (fun sp => listMin (sp.map (vdist e)))

/-- Per-polygon nearest-vertex indices: the `indices` list. -/
noncomputable def polyArgmins (e : Pt2) (polys : List (List Pt2)) : List ℕ :=
  polys.map (fun sp => argminIdx (sp.map (vdist e)))

/-- The containment fallback loop
`for i, poly in enumerate(self.polygons): if poly.contains_point([x, y]): p = i; break`,
started at index `i`. -/
def firstContainingFrom (containsPt : List Pt2 → Pt2 → Bool) (e : Pt2) :
    ℕ → List (List Pt2) → Option ℕ
  | _, [] => none
  | i, sp :: tl =>
      if containsPt sp e then some i else firstContainingFrom containsPt e (i + 1) tl

def firstContaining (containsPt : List Pt2 → Pt2 → Bool)
    (polys : List (List Pt2)) (e : Pt2) : Option ℕ :=
  firstContainingFrom containsPt e 0 polys

/-- The seam substitution at the end of `_get_polygon_vertice_id`:
`last = len(self.polygons[p].xy) - 1; if v == 0 or v == last: v = [0, last]`.
A plain vertex is returned as the one-element list `[v]` (numpy's
`atleast_1d` view used by the vertex-delete code). -/
def seamSub (polys : List (List Pt2)) (p v : ℕ) : Option ℕ × Option (List ℕ) :=
  if v = 0 ∨ v = (polys.getD p []).length - 1 then
    (some p, some [0, (polys.getD p []).length - 1])
  else (some p, some [v])

/-- `Moulder._get_polygon_vertice_id`: per-polygon minimal screen distances,
`p = argmin(distances)`; if `distances[p] >= epsilon`, fall back to the
containment loop with no vertex; otherwise return polygon `p` and its
nearest-vertex index with the seam pair substituted. -/
noncomputable def get_polygon_vertice_id (containsPt : List Pt2 → Pt2 → Bool)
    (polys : List (List Pt2)) (e : Pt2) : Option ℕ × Option (List ℕ) :=
  if epsilon ≤ (polyMins e polys).getD (argminIdx (polyMins e polys)) 0 then
    (firstContaining containsPt polys e, none)
  else
    seamSub polys (argminIdx (polyMins e polys))
      ((polyArgmins e polys).getD (argminIdx (polyMins e polys)) 0)

/-- All `(polygon index, vertex index, screen distance)` triples of one
polygon, in vertex order, vertex indices starting at `j`. -/
noncomputable def tripleRow (e : Pt2) (i : ℕ) : ℕ → List Pt2 → List (ℕ × ℕ × ℝ)
  | _, [] => []
  | j, q :: l => (i, j, vdist e q) :: tripleRow e i (j + 1) l

/-- All `(polygon index, vertex index, screen distance)` triples over all
polygons in list order, polygon indices starting at `i`. -/
noncomputable def nearestAllFrom (e : Pt2) : ℕ → List (List Pt2) → List (ℕ × ℕ × ℝ)
  | _, [] => []
  | i, sp :: tl => tripleRow e i 0 sp ++ nearestAllFrom e (i + 1) tl

/-- First triple whose distance equals `d`; its polygon and vertex index. -/
noncomputable def firstWithDist (d : ℝ) : List (ℕ × ℕ × ℝ) → Option (ℕ × ℕ)
  | [] => none
  | (a, b, x) :: l => if x = d then some (a, b) else firstWithDist d l

/-- Dispatch on the nearest-vertex search result: a vertex hit (with seam
substitution) when the nearest distance `d` is strictly below epsilon,
otherwise the containment fallback. -/
noncomputable def resolveNearest (containsPt : List Pt2 → Pt2 → Bool)
    (polys : List (List Pt2)) (e : Pt2) (d : ℝ) :
    Option (ℕ × ℕ) → Option ℕ × Option (List ℕ)
  | none => (none, none)
  | some (p, v) =>
      if d < epsilon then seamSub polys p v
      else (firstContaining containsPt polys e, none)

/-- Modelled from the spec's hit-test resolution rule, word by word:
"compute nearest vertex across *all* polygons by screen-space distance; let
its distance be d and owning polygon be p.  If d < epsilon, classify as
vertex-hit on (p, nearestVertexIndex); if that index is the seam,
substitute the seam pair.  If d ≥ epsilon, fall back to testing
polygon-interior containment against each polygon in list order, selecting
the first match (polygon-hit, no vertex) or none." -/
noncomputable def hitTestSpec (containsPt : List Pt2 → Pt2 → Bool)
    (polys : List (List Pt2)) (e : Pt2) : Option ℕ × Option (List ℕ) :=
  resolveNearest containsPt polys e
    (listMin ((nearestAllFrom e 0 polys).map (fun t => t.2.2)))
    (firstWithDist (listMin ((nearestAllFrom e 0 polys).map (fun t => t.2.2)))
      (nearestAllFrom e 0 polys))

/-! ## Vertex insertion (`Moulder._add_new_vertex`)

`_add_new_vertex` works in model (data) space on the closed vertex array
`xy` of the selected polygon: it drops the closing duplicate
(`x1 = x[:-1]`), pairs each ring vertex with its cyclic successor
(`x2 = numpy.roll(x1, -1)`), computes for every edge the angle subtended at
the event point by the two edge endpoints
(`arccos(u·v / |u| / |v|)` with `u`, `v` the vectors from the event point
to the two endpoints), and inserts the event point at `argmax + 1` in the
full closed array. -/

/-- Dot product `numpy.sum(u*v, 1)` of two 2-d vectors. -/
def dotR (u v : Pt2) : ℝ := u.1 * v.1 + u.2 * v.2

/-- Euclidean norm `numpy.sqrt(numpy.sum(u**2, 1))` of a 2-d vector. -/
noncomputable def normR (u : Pt2) : ℝ := Real.sqrt (u.1 ^ 2 + u.2 ^ 2)

/-- Cast a model-space point to real coordinates. -/
def toR (q : Pt) : Pt2 := ((q.1 : ℝ), (q.2 : ℝ))

/-- The angle at the candidate point `pt` subtended by the two ring
vertices `a` and `b`. -/
noncomputable def edgeAngle (pt a b : Pt2) : ℝ :=
  Real.arccos (dotR (a - pt) (b - pt) / normR (a - pt) / normR (b - pt))

/-- The per-edge angle array: edges `(ring[j], ring[(j+1) % n])` of the
open ring `xy[:-1]`, treated cyclically via `numpy.roll(x1, -1)`. -/
noncomputable def edgeAngles (xy : List Pt) (q : Pt) : List ℝ :=
  ((xy.dropLast).zip ((xy.dropLast).rotate 1)).map
    (fun ab => edgeAngle (toR q) (toR ab.1) (toR ab.2))

/-- `position = angle.argmax() + 1`. -/
noncomputable def insertPosition (xy : List Pt) (q : Pt) : ℕ :=
  argmaxIdx (edgeAngles xy q) + 1

/-- `Moulder._add_new_vertex`: the new closed vertex array, with the event
point spliced in at `position`
(`numpy.hstack((x[:position], event.xdata, x[position:]))`). -/
noncomputable def add_new_vertex (xy : List Pt) (q : Pt) : List Pt :=
  xy.take (insertPosition xy q) ++ [q] ++ xy.drop (insertPosition xy q)

/-- Closed unit square (seam duplicate at the end), as stored in
`polygon.xy`. -/
def sqPoly : List Pt := [(0, 0), (1, 0), (1, 1), (0, 1), (0, 0)]

/-! ## The editing state machine (`Moulder` event callbacks)

State fields mirror the Python instance attributes.  `ivert` stores a
selected single vertex as the one-element list `[v]` and the seam pair as
`[0, last]`, matching how the source consumes `self._ivert` (numpy fancy
indexing / `numpy.atleast_1d`).  `lines` carries the vertex data of the
`Line2D` contour objects, kept in lock-step with `polygons` by the source.
Rendering-only actions (`canvas.draw`, artists, signals, background blits)
have no state fields. -/

structure MState where
  polygons : List (List Pt)
  lines : List (List Pt)
  densities : List ℚ
  density : ℚ
  error : ℚ
  ipoly : Option ℕ
  ivert : Option (List ℕ)
  drawing : Bool
  addVertex : Bool
  xy : Option (List Pt)
  drawingPlot : Option (List Pt)
  lastevent : Option Pt

/-- Mouse / keyboard / slider events.  `press` carries the pixel position
(`event.x`, `event.y`) used by the hit test and the data position
(`event.xdata`, `event.ydata`); `move` carries the data position; the
move event's button is `none` when no button is held. -/
inductive MEvent where
  | press (button : ℕ) (x y : ℝ) (xdata zdata : ℚ) (inModelAx : Bool)
  | release (button : ℕ) (inModelAx : Bool)
  | move (button : Option ℕ) (xdata zdata : ℚ) (inModelAx : Bool)
  | keyD
  | keyN
  | keyEsc
  | keyR
  | keyA
  | setDensity (v : ℚ)
  | setError (v : ℚ)

/-- matplotlib `Polygon.set_xy` auto-closing (the `xy` property setter of a
closed patch): append the first vertex when first and last differ. -/
def closePoly (l : List Pt) : List Pt :=
  if l ≠ [] ∧ l.head? ≠ l.getLast? then l ++ [l.headD (0, 0)] else l

/-- `[xy for i, xy in enumerate(poly.xy) if i not in verts]`. -/
def removeVerts (verts : List ℕ) (l : List Pt) : List Pt :=
  (l.enum.filter (fun iq => iq.1 ∉ verts)).map (fun iq => iq.2)

/-- `Moulder.new_polygon` (key `n`). -/
def new_polygon (s : MState) : MState :=
  { s with
    ivert := none
    ipoly := none
    drawing := true
    xy := some []
    drawingPlot := some [] }

/-- `Moulder.delete_polygon` (key `d`): pop the last drawn point while
drawing; else delete the selected vertex (only when the closed array has
more than 4 entries); else delete the selected polygon. -/
def delete_polygon (s : MState) : MState :=
  if s.drawing ∧ s.xy.getD [] ≠ [] then
    { s with
      xy := some ((s.xy.getD []).dropLast)
      drawingPlot := some ((s.xy.getD []).dropLast) }
  else if s.ivert ≠ none then
    let p := s.ipoly.getD 0
    let poly := s.polygons.getD p []
    if 4 < poly.length then
      let newPoly := closePoly (removeVerts (s.ivert.getD []) poly)
      { s with
        polygons := s.polygons.set p newPoly
        lines := s.lines.set p newPoly
        ivert := none }
    else s
  else if s.ipoly ≠ none then
    let p := s.ipoly.getD 0
    { s with
      polygons := s.polygons.eraseIdx p
      lines := s.lines.eraseIdx p
      densities := s.densities.eraseIdx p
      ipoly := none }
  else s

/-- `Moulder.cancel_drawing` (key escape). -/
def cancel_drawing (s : MState) : MState :=
  if s.addVertex then { s with addVertex := false }
  else
    { s with
      drawing := false
      xy := some []
      drawingPlot := none }

/-- `Moulder.add_vertex` (key `a`): toggle the add-vertex flag. -/
def add_vertex (s : MState) : MState :=
  { s with addVertex := !s.addVertex }

/-- The `density` property setter (density slider). -/
def set_density (s : MState) (value : ℚ) : MState :=
  match s.ipoly with
  | some p =>
      { s with
        density := value
        densities := s.densities.set p value }
  | none => { s with density := value }

/-- The `error` property setter (error slider). -/
def set_error (s : MState) (value : ℚ) : MState :=
  { s with error := value }

/-- `Moulder._button_press_callback`. -/
noncomputable def button_press_callback (tr : Pt → Pt2)
    (containsPt : List Pt2 → Pt2 → Bool) (s : MState) (button : ℕ)
    (x y : ℝ) (xdata zdata : ℚ) (inModelAx : Bool) : MState :=
  if ¬ inModelAx then s
  else if button = 1 ∧ ¬ s.drawing ∧ s.polygons ≠ [] then
    let s1 := { s with lastevent := some (xdata, zdata) }
    if ¬ s1.addVertex then
      let pv := get_polygon_vertice_id containsPt
        (s1.polygons.map (fun poly => poly.map tr)) (x, y)
      { s1 with ipoly := pv.1, ivert := pv.2 }
    else
      match s1.ipoly with
      | some p =>
          let newPoly := closePoly (add_new_vertex (s1.polygons.getD p [])
            (xdata, zdata))
          { s1 with
            polygons := (s1.polygons.eraseIdx p).insertIdx p newPoly
            lines := (s1.lines.eraseIdx p).insertIdx p newPoly }
      | none => s1
  else if s.drawing then
    if button = 1 then
      { s with
        xy := some (s.xy.getD [] ++ [(xdata, zdata)])
        drawingPlot := some (s.xy.getD [] ++ [(xdata, zdata)]) }
    else if button = 3 then
      if 3 ≤ (s.xy.getD []).length then
        { s with
          polygons := s.polygons ++ [closePoly (s.xy.getD [])]
          lines := s.lines ++ [closePoly (s.xy.getD [])]
          densities := s.densities ++ [s.density]
          drawingPlot := none
          xy := none
          drawing := false
          ipoly := some s.polygons.length }
      else s
    else s
  else s

/-- `Moulder._button_release_callback`. -/
def button_release_callback (s : MState) (button : ℕ) (inModelAx : Bool) :
    MState :=
  if ¬ inModelAx then s
  else if button ≠ 1 then s
  else
    let s1 := if s.addVertex then { s with addVertex := false } else s
    if s1.ivert = none ∧ s1.ipoly = none then s1
    else
      { s1 with
        ivert := none
        lastevent := none }

/-- `Moulder._mouse_move_callback`. -/
def mouse_move_callback (s : MState) (button : Option ℕ) (xdata zdata : ℚ)
    (inModelAx : Bool) : MState :=
  if ¬ inModelAx then s
  else if button ≠ some 1 then s
  else if s.ivert = none ∧ s.ipoly = none then s
  else if s.addVertex then s
  else
    let p := s.ipoly.getD 0
    let poly := s.polygons.getD p []
    let newPoly :=
      match s.ivert with
      | some verts =>
          poly.enum.map (fun iq => if iq.1 ∈ verts then (xdata, zdata) else iq.2)
      | none =>
          let le := s.lastevent.getD (0, 0)
          poly.map (fun v => (v.1 + (xdata - le.1), v.2 + (zdata - le.2)))
    { s with
      polygons := s.polygons.set p newPoly
      lines := s.lines.set p newPoly
      lastevent := some (xdata, zdata) }

/-- One event dispatch (`keyPressEvent` and the mpl connections). -/
noncomputable def step (tr : Pt → Pt2) (containsPt : List Pt2 → Pt2 → Bool)
    (s : MState) (e : MEvent) : MState :=
  match e with
  | .press button x y xdata zdata inax =>
      button_press_callback tr containsPt s button x y xdata zdata inax
  | .release button inax => button_release_callback s button inax
  | .move button xdata zdata inax => mouse_move_callback s button xdata zdata inax
  | .keyD => delete_polygon s
  | .keyN => new_polygon s
  | .keyEsc => cancel_drawing s
  | .keyR => s
  | .keyA => add_vertex s
  | .setDensity v => set_density s v
  | .setError v => set_error s v

/-- The state right after `__init__` / `_init_markers`. -/
def initState : MState :=
  { polygons := []
    lines := []
    densities := []
    density := 0
    error := 0
    ipoly := none
    ivert := none
    drawing := false
    addVertex := false
    xy := some []
    drawingPlot := none
    lastevent := none }

/-- Euclidean distance between two model-space vertices. -/
noncomputable def distR (a b : Pt) : ℝ :=
  Real.sqrt (((a.1 : ℝ) - (b.1 : ℝ)) ^ 2 + ((a.2 : ℝ) - (b.2 : ℝ)) ^ 2)

/-- A state in Drawing mode with a three-point buffer. -/
def drawState : MState :=
  { initState with
    drawing := true
    xy := some [(0, 0), (10, 0), (5, 10)]
    drawingPlot := some [(0, 0), (10, 0), (5, 10)]
    density := 250 }

/-- A closed triangle (4 entries) selected at its non-seam vertex 1. -/
def triState : MState :=
  { initState with
    polygons := [[(0, 0), (1, 0), (0, 1), (0, 0)]]
    lines := [[(0, 0), (1, 0), (0, 1), (0, 0)]]
    densities := [100]
    ipoly := some 0
    ivert := some [1] }

/-- The closed unit square (5 entries) selected at its non-seam vertex 1. -/
def sqState : MState :=
  { initState with
    polygons := [sqPoly]
    lines := [sqPoly]
    densities := [100]
    ipoly := some 0
    ivert := some [1] }

/-- A Selected state: polygon 0 selected, not drawing, not armed. -/
def selState : MState :=
  { initState with
    polygons := [[(0, 0), (1, 0), (0, 1), (0, 0)]]
    lines := [[(0, 0), (1, 0), (0, 1), (0, 0)]]
    densities := [100]
    ipoly := some 0 }

/-- An armed (add-vertex) state with polygon 0 selected. -/
def armedState : MState :=
  { initState with
    polygons := [sqPoly]
    lines := [sqPoly]
    densities := [100]
    ipoly := some 0
    addVertex := true }

/-- A whole-polygon drag state on the unit square. -/
def dragState : MState :=
  { initState with
    polygons := [sqPoly]
    lines := [sqPoly]
    densities := [100]
    ipoly := some 0
    lastevent := some (0, 0) }

/-- A seam-vertex drag state on the unit square. -/
def seamState : MState :=
  { initState with
    polygons := [sqPoly]
    lines := [sqPoly]
    densities := [100]
    ipoly := some 0
    ivert := some [0, 4] }

/-- C10's invariant: the lines and densities lists stay in lock-step with
the polygons list, a selected vertex implies a selected polygon, and a
selected polygon index is in bounds (hence valid for all three lists). -/
def MInv (s : MState) : Prop :=
  s.lines.length = s.polygons.length ∧
  s.densities.length = s.polygons.length ∧
  (s.ivert ≠ none → s.ipoly ≠ none) ∧
  (∀ p, s.ipoly = some p → p < s.polygons.length)

theorem listMin_cons (a : ℝ) (l : List ℝ) (h : l ≠ []) :
    listMin (a :: l) = min a (listMin l) := by
  cases l with
  | nil => exact absurd rfl h
  | cons b t => rfl

theorem listMin_le (l : List ℝ) (x : ℝ) (hx : x ∈ l) : listMin l ≤ x := by
  induction l with
  | nil => cases hx
  | cons a t ih =>
    cases t with
    | nil =>
      rw [List.mem_singleton] at hx
      subst hx
      simp [listMin]
    | cons b t' =>
      rw [listMin_cons a (b :: t') (by simp)]
      rcases List.mem_cons.mp hx with h | h
      · subst h; exact min_le_left _ _
      · exact le_trans (min_le_right _ _) (ih h)

theorem listMin_mem (l : List ℝ) (h : l ≠ []) : listMin l ∈ l := by
  induction l with
  | nil => exact absurd rfl h
  | cons a t ih =>
    cases t with
    | nil => simp [listMin]
    | cons b t' =>
      rw [listMin_cons a (b :: t') (by simp)]
      rcases le_total a (listMin (b :: t')) with hle | hle
      · rw [min_eq_left hle]; exact List.mem_cons_self _ _
      · rw [min_eq_right hle]
        exact List.mem_cons_of_mem _ (ih (by simp))

theorem listMin_append (l₁ l₂ : List ℝ) (h₁ : l₁ ≠ []) (h₂ : l₂ ≠ []) :
    listMin (l₁ ++ l₂) = min (listMin l₁) (listMin l₂) := by
  induction l₁ with
  | nil => exact absurd rfl h₁
  | cons a t ih =>
    cases t with
    | nil =>
      rw [List.singleton_append, listMin_cons a l₂ h₂]
      simp [listMin]
    | cons b t' =>
      have hne : (b :: t') ++ l₂ ≠ [] := by simp
      rw [List.cons_append, listMin_cons a ((b :: t') ++ l₂) hne,
        ih (by simp), listMin_cons a (b :: t') (by simp), min_assoc]

theorem argminIdx_lt_length (l : List ℝ) (h : l ≠ []) : argminIdx l < l.length := by
  induction l with
  | nil => exact absurd rfl h
  | cons a t ih =>
    rw [argminIdx]
    haveI := Classical.propDecidable (∀ b ∈ t, a ≤ b)
    split
    · simp
    · cases t with
      | nil => simp_all
      | cons b t' =>
        have := ih (by simp)
        simpa [Nat.succ_lt_succ_iff] using this

theorem argminIdx_cons_of_le (a : ℝ) (l : List ℝ) (h : ∀ b ∈ l, a ≤ b) :
    argminIdx (a :: l) = 0 := by
  rw [argminIdx]
  haveI := Classical.propDecidable (∀ b ∈ l, a ≤ b)
  exact if_pos h

theorem argminIdx_cons_of_lt (a : ℝ) (l : List ℝ) (h : ∃ b ∈ l, b < a) :
    argminIdx (a :: l) = argminIdx l + 1 := by
  rw [argminIdx]
  haveI := Classical.propDecidable (∀ b ∈ l, a ≤ b)
  refine if_neg ?_
  rintro hall
  obtain ⟨b, hb, hba⟩ := h
  exact absurd (hall b hb) (not_le.mpr hba)

/-- `argminIdx` attains the minimum value. -/
theorem getD_argminIdx (l : List ℝ) (h : l ≠ []) :
    l.getD (argminIdx l) 0 = listMin l := by
  induction l with
  | nil => exact absurd rfl h
  | cons a t ih =>
    cases t with
    | nil => simp [argminIdx, listMin]
    | cons b t' =>
      rw [listMin_cons a (b :: t') (by simp), argminIdx]
      haveI := Classical.propDecidable (∀ c ∈ (b :: t'), a ≤ c)
      split
      · rename_i hall
        have : a ≤ listMin (b :: t') :=
          hall _ (listMin_mem (b :: t') (by simp))
        simp [min_eq_left this]
      · rename_i hnall
        push_neg at hnall
        obtain ⟨c, hc, hca⟩ := hnall
        have hlt : listMin (b :: t') < a := lt_of_le_of_lt (listMin_le _ _ hc) hca
        rw [min_eq_right (le_of_lt hlt)]
        simpa using ih (by simp)

theorem argmaxIdx_lt_length (l : List ℝ) (h : l ≠ []) : argmaxIdx l < l.length := by
  induction l with
  | nil => exact absurd rfl h
  | cons a t ih =>
    rw [argmaxIdx]
    haveI := Classical.propDecidable (∀ b ∈ t, b ≤ a)
    split
    · simp
    · cases t with
      | nil => simp_all
      | cons b t' =>
        have := ih (by simp)
        simpa [Nat.succ_lt_succ_iff] using this

/-- If position `i` holds a strict maximum of the list, numpy's `argmax`
returns `i`. -/
theorem argmaxIdx_eq_of_strictMax (l : List ℝ) (i : ℕ) (hi : i < l.length)
    (hmax : ∀ j, j < l.length → j ≠ i → l.getD j 0 < l.getD i 0) :
    argmaxIdx l = i := by
  induction l generalizing i with
  | nil => simp at hi
  | cons a t ih =>
    cases i with
    | zero =>
      rw [argmaxIdx]
      haveI := Classical.propDecidable (∀ b ∈ t, b ≤ a)
      refine if_pos ?_
      intro b hb
      obtain ⟨j, hj, rfl⟩ := List.mem_iff_get.mp hb
      have := hmax (j + 1) (by simp) (by simp)
      have hg : (a :: t).getD (j + 1) 0 = t.get j := by
        simp [List.getD_cons_succ, List.getD_eq_getElem?_getD,
          List.getElem?_eq_getElem j.isLt]
      rw [hg] at this
      exact le_of_lt (by simpa using this)
    | succ k =>
      have hk : k < t.length := by simpa [Nat.succ_lt_succ_iff] using hi
      have h0 : a < t.getD k 0 := by
        have h := hmax 0 (by simp) (by simp)
        rwa [List.getD_cons_succ, List.getD_cons_zero] at h
      have hmemk : t.getD k 0 ∈ t := by
        rw [List.getD_eq_getElem?_getD, List.getElem?_eq_getElem hk, Option.getD_some]
        exact List.getElem_mem hk
      rw [argmaxIdx]
      haveI := Classical.propDecidable (∀ b ∈ t, b ≤ a)
      rw [if_neg (by
        intro hall
        exact absurd h0 (not_lt.mpr (hall _ hmemk)))]
      have htail : argmaxIdx t = k := by
        refine ih k hk ?_
        intro j hj hjk
        have := hmax (j + 1) (by simpa [Nat.succ_lt_succ_iff] using hj)
          (by simp [hjk])
        simpa [List.getD_cons_succ] using this
      omega

theorem getD_map_of_lt {α β : Type} (f : α → β) (l : List α) (n : ℕ)
    (hn : n < l.length) (d₁ : β) (d₂ : α) :
    (l.map f).getD n d₁ = f (l.getD n d₂) := by
  rw [List.getD_eq_getElem?_getD, List.getD_eq_getElem?_getD,
    List.getElem?_eq_getElem (by simpa using hn), List.getElem?_eq_getElem hn,
    Option.getD_some, Option.getD_some, List.getElem_map]

theorem tripleRow_map_dist (e : Pt2) (i : ℕ) :
    ∀ (sp : List Pt2) (j : ℕ),
      (tripleRow e i j sp).map (fun t => t.2.2) = sp.map (vdist e) := by
  intro sp
  induction sp with
  | nil => intro j; rfl
  | cons q l ih => intro j; simp [tripleRow, ih (j + 1)]

theorem mem_tripleRow_dist (e : Pt2) (i : ℕ) :
    ∀ (sp : List Pt2) (j : ℕ) (t : ℕ × ℕ × ℝ),
      t ∈ tripleRow e i j sp → t.2.2 ∈ sp.map (vdist e) := by
  intro sp
  induction sp with
  | nil => intro j t ht; cases ht
  | cons q l ih =>
    intro j t ht
    rcases List.mem_cons.mp ht with h | h
    · subst h; simp
    · exact List.mem_cons_of_mem _ (ih (j + 1) t h)

theorem tripleRow_ne_nil (e : Pt2) (i j : ℕ) (sp : List Pt2) (h : sp ≠ []) :
    tripleRow e i j sp ≠ [] := by
  cases sp with
  | nil => exact absurd rfl h
  | cons q l => simp [tripleRow]

/-- The global minimum distance over the flattened triples equals the
minimum of the per-polygon minimum distances. -/
theorem nearestAllFrom_listMin (e : Pt2) :
    ∀ (polys : List (List Pt2)) (i : ℕ), polys ≠ [] → (∀ sp ∈ polys, sp ≠ []) →
      listMin ((nearestAllFrom e i polys).map (fun t => t.2.2)) =
        listMin (polyMins e polys) := by
  intro polys
  induction polys with
  | nil => intro i h; exact absurd rfl h
  | cons sp tl ih =>
    intro i _ hall
    have hsp : sp ≠ [] := hall sp (List.mem_cons_self _ _)
    cases tl with
    | nil =>
      simp only [nearestAllFrom, List.append_nil, polyMins, List.map_cons,
        List.map_nil, tripleRow_map_dist]
      rfl
    | cons sp2 tl2 =>
      have htl : (sp2 :: tl2 : List (List Pt2)) ≠ [] := by simp
      have hmapne : (tripleRow e i 0 sp).map (fun t => t.2.2) ≠ [] := by
        rw [tripleRow_map_dist]
        simpa using hsp
      have hrestne : (nearestAllFrom e (i + 1) (sp2 :: tl2)).map (fun t => t.2.2) ≠ [] := by
        intro hcon
        have : listMin ((nearestAllFrom e (i + 1) (sp2 :: tl2)).map (fun t => t.2.2)) =
            listMin (polyMins e (sp2 :: tl2)) :=
          ih (i + 1) htl (fun q hq => hall q (List.mem_cons_of_mem _ hq))
        have hsp2 : sp2 ≠ [] := hall sp2 (by simp)
        have h2 : tripleRow e (i + 1) 0 sp2 ≠ [] := tripleRow_ne_nil e (i + 1) 0 sp2 hsp2
        rw [nearestAllFrom] at hcon
        simp only [List.map_append, List.append_eq_nil, List.map_eq_nil_iff] at hcon
        exact h2 hcon.1
      rw [nearestAllFrom, List.map_append,
        listMin_append _ _ hmapne hrestne, tripleRow_map_dist,
        ih (i + 1) htl (fun q hq => hall q (List.mem_cons_of_mem _ hq))]
      have : polyMins e (sp :: sp2 :: tl2) =
          listMin (sp.map (vdist e)) :: polyMins e (sp2 :: tl2) := rfl
      rw [this, listMin_cons _ _ (by simp [polyMins])]

theorem firstWithDist_append_some (d : ℝ) (l₁ l₂ : List (ℕ × ℕ × ℝ)) (r : ℕ × ℕ)
    (h : firstWithDist d l₁ = some r) :
    firstWithDist d (l₁ ++ l₂) = some r := by
  induction l₁ with
  | nil => simp [firstWithDist] at h
  | cons t l ih =>
    obtain ⟨a, b, x⟩ := t
    rw [firstWithDist] at h
    rw [List.cons_append, firstWithDist]
    by_cases hx : x = d
    · rw [if_pos hx] at h ⊢
      exact h
    · rw [if_neg hx] at h ⊢
      exact ih h

theorem firstWithDist_append_none (d : ℝ) (l₁ l₂ : List (ℕ × ℕ × ℝ))
    (h : ∀ t ∈ l₁, t.2.2 ≠ d) :
    firstWithDist d (l₁ ++ l₂) = firstWithDist d l₂ := by
  induction l₁ with
  | nil => simp
  | cons t l ih =>
    obtain ⟨a, b, x⟩ := t
    have hx : x ≠ d := h (a, b, x) (by simp)
    rw [List.cons_append, firstWithDist, if_neg hx]
    exact ih (fun u hu => h u (List.mem_cons_of_mem _ hu))

/-- Scanning one polygon's triples for its own minimal distance finds the
polygon's index and its first nearest vertex (numpy `argmin`). -/
theorem firstWithDist_tripleRow (e : Pt2) (i : ℕ) :
    ∀ (sp : List Pt2) (j : ℕ), sp ≠ [] →
      firstWithDist (listMin (sp.map (vdist e))) (tripleRow e i j sp) =
        some (i, j + argminIdx (sp.map (vdist e))) := by
  intro sp
  induction sp with
  | nil => intro j h; exact absurd rfl h
  | cons q l ih =>
    intro j _
    cases l with
    | nil =>
      simp only [List.map_cons, List.map_nil, tripleRow]
      rw [firstWithDist, if_pos (by simp [listMin])]
      simp [argminIdx, listMin]
    | cons q2 l2 =>
      have hlne : ((q2 :: l2 : List Pt2).map (vdist e)) ≠ [] := by simp
      rw [List.map_cons, listMin_cons _ _ hlne]
      by_cases hle : vdist e q ≤ listMin ((q2 :: l2 : List Pt2).map (vdist e))
      · rw [min_eq_left hle, tripleRow, firstWithDist, if_pos rfl]
        have h0 : argminIdx (vdist e q :: (q2 :: l2 : List Pt2).map (vdist e)) = 0 :=
          argminIdx_cons_of_le _ _ (fun b hb => le_trans hle (listMin_le _ _ hb))
        rw [h0]
        simp
      · push_neg at hle
        have hk : argminIdx (vdist e q :: (q2 :: l2 : List Pt2).map (vdist e)) =
            argminIdx ((q2 :: l2 : List Pt2).map (vdist e)) + 1 :=
          argminIdx_cons_of_lt _ _
            ⟨listMin ((q2 :: l2 : List Pt2).map (vdist e)),
              listMin_mem _ hlne, hle⟩
        rw [min_eq_right (le_of_lt hle), tripleRow, firstWithDist,
          if_neg (ne_of_gt hle), ih (j + 1) (by simp), hk]
        simp only [Option.some.injEq, Prod.mk.injEq]
        exact ⟨trivial, by omega⟩

/-- Scanning the flattened triples for the global minimum finds exactly
the polygon chosen by `argmin` over per-polygon minima, and within it the
`argmin` vertex — i.e. the source's two-stage argmin equals the spec's
"nearest vertex across all polygons". -/
theorem firstWithDist_nearestAllFrom (e : Pt2) :
    ∀ (polys : List (List Pt2)) (i : ℕ), polys ≠ [] → (∀ sp ∈ polys, sp ≠ []) →
      firstWithDist (listMin (polyMins e polys)) (nearestAllFrom e i polys) =
        some (i + argminIdx (polyMins e polys),
          argminIdx ((polys.getD (argminIdx (polyMins e polys)) []).map (vdist e))) := by
  intro polys
  induction polys with
  | nil => intro i h; exact absurd rfl h
  | cons sp tl ih =>
    intro i _ hall
    have hsp : sp ≠ [] := hall sp (List.mem_cons_self _ _)
    cases tl with
    | nil =>
      have : polyMins e [sp] = [listMin (sp.map (vdist e))] := rfl
      rw [this]
      have hmin1 : listMin [listMin (sp.map (vdist e))] = listMin (sp.map (vdist e)) := rfl
      rw [hmin1, nearestAllFrom, nearestAllFrom, List.append_nil,
        firstWithDist_tripleRow e i sp 0 hsp]
      have : argminIdx [listMin (sp.map (vdist e))] = 0 := by
        simp [argminIdx]
      rw [this]
      simp
    | cons sp2 tl2 =>
      have htlne : (sp2 :: tl2 : List (List Pt2)) ≠ [] := by simp
      have htlall : ∀ q ∈ (sp2 :: tl2 : List (List Pt2)), q ≠ [] :=
        fun q hq => hall q (List.mem_cons_of_mem _ hq)
      have hpm : polyMins e (sp :: sp2 :: tl2) =
          listMin (sp.map (vdist e)) :: polyMins e (sp2 :: tl2) := rfl
      have hpmne : polyMins e (sp2 :: tl2) ≠ [] := by simp [polyMins]
      rw [hpm, listMin_cons _ _ hpmne]
      by_cases hle : listMin (sp.map (vdist e)) ≤ listMin (polyMins e (sp2 :: tl2))
      · rw [min_eq_left hle, nearestAllFrom]
        rw [firstWithDist_append_some _ _ _ _
          (firstWithDist_tripleRow e i sp 0 hsp)]
        have h0 : argminIdx (listMin (sp.map (vdist e)) :: polyMins e (sp2 :: tl2)) = 0 :=
          argminIdx_cons_of_le _ _ (fun b hb => le_trans hle (listMin_le _ _ hb))
        rw [h0]
        simp
      · push_neg at hle
        rw [min_eq_right (le_of_lt hle), nearestAllFrom]
        rw [firstWithDist_append_none _ _ _ (by
          intro t ht
          have hmem := mem_tripleRow_dist e i sp 0 t ht
          have : listMin (sp.map (vdist e)) ≤ t.2.2 := listMin_le _ _ hmem
          exact ne_of_gt (lt_of_lt_of_le hle this))]
        rw [ih (i + 1) htlne htlall]
        have hk : argminIdx (listMin (sp.map (vdist e)) :: polyMins e (sp2 :: tl2)) =
            argminIdx (polyMins e (sp2 :: tl2)) + 1 :=
          argminIdx_cons_of_lt _ _
            ⟨listMin (polyMins e (sp2 :: tl2)), listMin_mem _ hpmne, hle⟩
        rw [hk]
        have hgd : ((sp :: sp2 :: tl2 : List (List Pt2)).getD
            (argminIdx (polyMins e (sp2 :: tl2)) + 1) []) =
            ((sp2 :: tl2 : List (List Pt2)).getD
              (argminIdx (polyMins e (sp2 :: tl2))) []) :=
          List.getD_cons_succ
        rw [hgd]
        simp only [Option.some.injEq, Prod.mk.injEq]
        exact ⟨by omega, trivial⟩

/-- C1: for a press when not drawing with at least one polygon (each with a
nonempty vertex array), the source's hit-test function equals the spec's
resolution rule: nearest vertex over all polygons; strictly within epsilon
it is a vertex hit (seam pair substituted at index 0/last); otherwise the
first polygon containing the point (no vertex), or no hit. -/
theorem C1_hit_test_resolution (containsPt : List Pt2 → Pt2 → Bool)
    (polys : List (List Pt2)) (e : Pt2)
    (hne : polys ≠ []) (hvne : ∀ sp ∈ polys, sp ≠ []) :
    get_polygon_vertice_id containsPt polys e = hitTestSpec containsPt polys e := by
  have hDSne : polyMins e polys ≠ [] := by
    simpa [polyMins] using hne
  have hmin := nearestAllFrom_listMin e polys 0 hne hvne
  have hfind := firstWithDist_nearestAllFrom e polys 0 hne hvne
  have hP : argminIdx (polyMins e polys) < polys.length := by
    have := argminIdx_lt_length _ hDSne
    simpa [polyMins] using this
  rw [hitTestSpec, hmin, hfind, resolveNearest]
  rw [get_polygon_vertice_id]
  have hgd : (polyMins e polys).getD (argminIdx (polyMins e polys)) 0 =
      listMin (polyMins e polys) := getD_argminIdx _ hDSne
  have hvidx : (polyArgmins e polys).getD (argminIdx (polyMins e polys)) 0 =
      argminIdx ((polys.getD (argminIdx (polyMins e polys)) []).map (vdist e)) := by
    rw [polyArgmins]
    exact getD_map_of_lt _ _ _ hP _ _
  by_cases hcase : listMin (polyMins e polys) < epsilon
  · rw [if_neg (by rw [hgd]; exact not_le.mpr hcase), if_pos hcase, hvidx]
    simp
  · rw [if_pos (by rw [hgd]; exact not_lt.mp hcase), if_neg hcase]

theorem edgeAngles_length (xy : List Pt) (q : Pt) :
    (edgeAngles xy q).length = (xy.dropLast).length := by
  simp [edgeAngles]

theorem edgeAngles_getD (xy : List Pt) (q : Pt) (j : ℕ)
    (hj : j < (xy.dropLast).length) :
    (edgeAngles xy q).getD j 0 =
      edgeAngle (toR q) (toR ((xy.dropLast).getD j (0, 0)))
        (toR ((xy.dropLast).getD ((j + 1) % (xy.dropLast).length) (0, 0))) := by
  have hn : 0 < (xy.dropLast).length := Nat.lt_of_le_of_lt (Nat.zero_le j) hj
  have hmod : (j + 1) % (xy.dropLast).length < (xy.dropLast).length :=
    Nat.mod_lt _ hn
  have hjz : j < ((xy.dropLast).zip ((xy.dropLast).rotate 1)).length := by
    simpa using hj
  have hjm : j < (((xy.dropLast).zip ((xy.dropLast).rotate 1)).map
      (fun ab => edgeAngle (toR q) (toR ab.1) (toR ab.2))).length := by
    simpa using hjz
  have h1 : (xy.dropLast).getD j (0, 0) = (xy.dropLast)[j] := by
    rw [List.getD_eq_getElem?_getD, List.getElem?_eq_getElem hj, Option.getD_some]
  have h2 : (xy.dropLast).getD ((j + 1) % (xy.dropLast).length) (0, 0) =
      (xy.dropLast)[(j + 1) % (xy.dropLast).length] := by
    rw [List.getD_eq_getElem?_getD, List.getElem?_eq_getElem hmod, Option.getD_some]
  rw [edgeAngles, List.getD_eq_getElem?_getD, List.getElem?_eq_getElem hjm,
    Option.getD_some, List.getElem_map, List.getElem_zip, h1, h2,
    List.getElem_rotate]

/-- Two-dimensional Cauchy–Schwarz for `dotR`/`normR`. -/
theorem abs_dotR_le (u v : Pt2) : |dotR u v| ≤ normR u * normR v := by
  rw [normR, normR, ← Real.sqrt_mul (by positivity)]
  rw [← Real.sqrt_sq_eq_abs]
  apply Real.sqrt_le_sqrt
  have h := sq_nonneg (u.1 * v.2 - u.2 * v.1)
  rw [dotR]
  nlinarith [h]

/-- If the two rays are not antiparallel (strict Cauchy–Schwarz on the
negative side), the subtended angle is strictly below `π`. -/
theorem arccos_ratio_lt_pi (u v : Pt2)
    (h : -(normR u * normR v) < dotR u v) :
    Real.arccos (dotR u v / normR u / normR v) < Real.pi := by
  have hD : 0 ≤ normR u * normR v := by
    have := Real.sqrt_nonneg (u.1 ^ 2 + u.2 ^ 2)
    have := Real.sqrt_nonneg (v.1 ^ 2 + v.2 ^ 2)
    rw [normR, normR]
    positivity
  have hDpos : 0 < normR u * normR v := by
    rcases lt_or_eq_of_le hD with hpos | heq
    · exact hpos
    · exfalso
      have habs := abs_dotR_le u v
      rw [← heq] at habs h
      have h2 : dotR u v ≤ 0 := le_trans (le_abs_self _) habs
      have h3 : (0 : ℝ) < dotR u v := by simpa using h
      linarith
  have hc : -1 < dotR u v / normR u / normR v := by
    rw [div_div, lt_div_iff₀ hDpos]
    linarith
  have hle := Real.arccos_le_pi (dotR u v / normR u / normR v)
  have hne : Real.arccos (dotR u v / normR u / normR v) ≠ Real.pi := by
    rw [Ne, Real.arccos_eq_pi]
    exact not_le.mpr hc
  exact lt_of_le_of_ne hle hne

/-- The cosine ratio of two antiparallel vectors is exactly `-1`. -/
theorem ratio_antiparallel (w1 w2 t u : ℝ) (hS : 0 < w1 ^ 2 + w2 ^ 2)
    (ht : 0 < t) (hu : 0 < u) :
    dotR (t * w1, t * w2) (-(u * w1), -(u * w2)) /
      normR (t * w1, t * w2) / normR (-(u * w1), -(u * w2)) = -1 := by
  have hs : 0 < Real.sqrt (w1 ^ 2 + w2 ^ 2) := Real.sqrt_pos.mpr hS
  have hnu : normR (t * w1, t * w2) = t * Real.sqrt (w1 ^ 2 + w2 ^ 2) := by
    rw [normR]
    have h : (t * w1) ^ 2 + (t * w2) ^ 2 = t ^ 2 * (w1 ^ 2 + w2 ^ 2) := by ring
    rw [h, Real.sqrt_mul (sq_nonneg t), Real.sqrt_sq ht.le]
  have hnv : normR (-(u * w1), -(u * w2)) = u * Real.sqrt (w1 ^ 2 + w2 ^ 2) := by
    rw [normR]
    have h : (-(u * w1)) ^ 2 + (-(u * w2)) ^ 2 = u ^ 2 * (w1 ^ 2 + w2 ^ 2) := by ring
    rw [h, Real.sqrt_mul (sq_nonneg u), Real.sqrt_sq hu.le]
  have hdot : dotR (t * w1, t * w2) (-(u * w1), -(u * w2)) =
      -(t * u * (w1 ^ 2 + w2 ^ 2)) := by
    rw [dotR]; ring
  have hsq : Real.sqrt (w1 ^ 2 + w2 ^ 2) * Real.sqrt (w1 ^ 2 + w2 ^ 2) =
      w1 ^ 2 + w2 ^ 2 := Real.mul_self_sqrt hS.le
  rw [hdot, hnu, hnv, div_div, div_eq_iff (by positivity)]
  calc -(t * u * (w1 ^ 2 + w2 ^ 2))
      = -(t * u * (Real.sqrt (w1 ^ 2 + w2 ^ 2) * Real.sqrt (w1 ^ 2 + w2 ^ 2))) := by
        rw [hsq]
    _ = -1 * (t * Real.sqrt (w1 ^ 2 + w2 ^ 2) * (u * Real.sqrt (w1 ^ 2 + w2 ^ 2))) := by
        ring

/-- At a point strictly inside the segment from `a` to `b`, the angle
subtended by `a` and `b` is exactly `π`. -/
theorem edgeAngle_on_segment (a b : Pt) (t : ℚ) (ht0 : 0 < t) (ht1 : t < 1)
    (hab : a ≠ b) :
    edgeAngle (toR ((1 - t) * a.1 + t * b.1, (1 - t) * a.2 + t * b.2))
      (toR a) (toR b) = Real.pi := by
  have hw : ((a.1 : ℝ) - (b.1 : ℝ) ≠ 0) ∨ ((a.2 : ℝ) - (b.2 : ℝ) ≠ 0) := by
    by_contra hcon
    push_neg at hcon
    obtain ⟨h1, h2⟩ := hcon
    apply hab
    have e1 : a.1 = b.1 := by exact_mod_cast sub_eq_zero.mp h1
    have e2 : a.2 = b.2 := by exact_mod_cast sub_eq_zero.mp h2
    exact Prod.ext e1 e2
  have hS : 0 < ((a.1 : ℝ) - (b.1 : ℝ)) ^ 2 + ((a.2 : ℝ) - (b.2 : ℝ)) ^ 2 := by
    rcases hw with h | h
    · have h1 : 0 < ((a.1 : ℝ) - (b.1 : ℝ)) ^ 2 :=
        lt_of_le_of_ne (sq_nonneg _) (Ne.symm (pow_ne_zero 2 h))
      nlinarith [sq_nonneg ((a.2 : ℝ) - (b.2 : ℝ))]
    · have h1 : 0 < ((a.2 : ℝ) - (b.2 : ℝ)) ^ 2 :=
        lt_of_le_of_ne (sq_nonneg _) (Ne.symm (pow_ne_zero 2 h))
      nlinarith [sq_nonneg ((a.1 : ℝ) - (b.1 : ℝ))]
  have hu : toR a - toR ((1 - t) * a.1 + t * b.1, (1 - t) * a.2 + t * b.2) =
      ((t : ℝ) * ((a.1 : ℝ) - (b.1 : ℝ)), (t : ℝ) * ((a.2 : ℝ) - (b.2 : ℝ))) := by
    rw [Prod.ext_iff]
    constructor
    · simp only [toR, Prod.fst_sub]
      push_cast
      ring
    · simp only [toR, Prod.snd_sub]
      push_cast
      ring
  have hv : toR b - toR ((1 - t) * a.1 + t * b.1, (1 - t) * a.2 + t * b.2) =
      (-((1 - (t : ℝ)) * ((a.1 : ℝ) - (b.1 : ℝ))),
        -((1 - (t : ℝ)) * ((a.2 : ℝ) - (b.2 : ℝ)))) := by
    rw [Prod.ext_iff]
    constructor
    · simp only [toR, Prod.fst_sub]
      push_cast
      ring
    · simp only [toR, Prod.snd_sub]
      push_cast
      ring
  have ht0' : 0 < (t : ℝ) := by exact_mod_cast ht0
  have ht1' : 0 < 1 - (t : ℝ) := by
    have : (t : ℝ) < 1 := by exact_mod_cast ht1
    linarith
  rw [edgeAngle, hu, hv,
    ratio_antiparallel ((a.1 : ℝ) - (b.1 : ℝ)) ((a.2 : ℝ) - (b.2 : ℝ))
      (t : ℝ) (1 - (t : ℝ)) hS ht0' ht1',
    Real.arccos_neg_one]

/-- C3: the insertion rule computes, for every edge of the ring treated
cyclically, the angle subtended at the candidate point by the two edge
endpoints, and inserts at `argmax + 1`.  For a candidate point lying
strictly inside edge `(i, i+1)` — in particular near the midpoint of an
edge of a convex polygon — while seeing no other edge flat (which holds
for every other edge of a convex polygon), the insertion index is exactly
`i + 1`, with the same rule at the seam edge as everywhere else. -/
theorem C3_insert_on_edge_yields_succ (xy : List Pt) (q : Pt) (i : ℕ)
    (hi : i < (xy.dropLast).length)
    (t : ℚ) (ht0 : 0 < t) (ht1 : t < 1)
    (hab : (xy.dropLast).getD i (0, 0) ≠
      (xy.dropLast).getD ((i + 1) % (xy.dropLast).length) (0, 0))
    (hq : q = ((1 - t) * ((xy.dropLast).getD i (0, 0)).1 +
        t * ((xy.dropLast).getD ((i + 1) % (xy.dropLast).length) (0, 0)).1,
      (1 - t) * ((xy.dropLast).getD i (0, 0)).2 +
        t * ((xy.dropLast).getD ((i + 1) % (xy.dropLast).length) (0, 0)).2))
    (hothers : ∀ j, j < (xy.dropLast).length → j ≠ i →
      -(normR (toR ((xy.dropLast).getD j (0, 0)) - toR q) *
          normR (toR ((xy.dropLast).getD ((j + 1) % (xy.dropLast).length) (0, 0)) -
            toR q)) <
        dotR (toR ((xy.dropLast).getD j (0, 0)) - toR q)
          (toR ((xy.dropLast).getD ((j + 1) % (xy.dropLast).length) (0, 0)) - toR q)) :
    insertPosition xy q = i + 1 := by
  have hEi : (edgeAngles xy q).getD i 0 = Real.pi := by
    rw [edgeAngles_getD xy q i hi, hq]
    exact edgeAngle_on_segment _ _ t ht0 ht1 hab
  have hEj : ∀ j, j < (xy.dropLast).length → j ≠ i →
      (edgeAngles xy q).getD j 0 < Real.pi := by
    intro j hj hne
    rw [edgeAngles_getD xy q j hj, edgeAngle]
    exact arccos_ratio_lt_pi _ _ (hothers j hj hne)
  have hlen : (edgeAngles xy q).length = (xy.dropLast).length :=
    edgeAngles_length xy q
  have hargmax : argmaxIdx (edgeAngles xy q) = i := by
    apply argmaxIdx_eq_of_strictMax
    · rw [hlen]; exact hi
    · intro j hj hne
      rw [hEi]
      exact hEj j (by rwa [hlen] at hj) hne
  rw [insertPosition, hargmax]

theorem normR_nonneg (u : Pt2) : 0 ≤ normR u := Real.sqrt_nonneg _

/-- Witness for C3: inserting at the midpoint of edge `(0, 1)` of the unit
square yields insertion index `1`. -/
theorem C3_witness : insertPosition sqPoly (1/2, 0) = 0 + 1 := by
  refine C3_insert_on_edge_yields_succ sqPoly (1/2, 0) 0 (by decide) (1/2)
    (by norm_num) (by norm_num) (by decide)
    (by
      rw [show sqPoly.dropLast.getD 0 (0, 0) = ((0 : ℚ), (0 : ℚ)) from rfl,
        show sqPoly.dropLast.getD ((0 + 1) % sqPoly.dropLast.length) (0, 0) =
          ((1 : ℚ), (0 : ℚ)) from rfl]
      norm_num) ?_
  intro j hj hne
  have hlen : (sqPoly.dropLast).length = 4 := rfl
  rw [hlen] at hj
  interval_cases j
  · exact absurd rfl hne
  · have g1 : sqPoly.dropLast.getD 1 (0, 0) = ((1 : ℚ), (0 : ℚ)) := rfl
    have g2 : sqPoly.dropLast.getD ((1 + 1) % (sqPoly.dropLast).length) (0, 0) =
        ((1 : ℚ), (1 : ℚ)) := rfl
    rw [g1, g2]
    refine lt_of_le_of_lt
      (neg_nonpos_of_nonneg (mul_nonneg (normR_nonneg _) (normR_nonneg _))) ?_
    norm_num [dotR, toR, Prod.fst_sub, Prod.snd_sub]
  · have g1 : sqPoly.dropLast.getD 2 (0, 0) = ((1 : ℚ), (1 : ℚ)) := rfl
    have g2 : sqPoly.dropLast.getD ((2 + 1) % (sqPoly.dropLast).length) (0, 0) =
        ((0 : ℚ), (1 : ℚ)) := rfl
    rw [g1, g2]
    refine lt_of_le_of_lt
      (neg_nonpos_of_nonneg (mul_nonneg (normR_nonneg _) (normR_nonneg _))) ?_
    norm_num [dotR, toR, Prod.fst_sub, Prod.snd_sub]
  · have g1 : sqPoly.dropLast.getD 3 (0, 0) = ((0 : ℚ), (1 : ℚ)) := rfl
    have g2 : sqPoly.dropLast.getD ((3 + 1) % (sqPoly.dropLast).length) (0, 0) =
        ((0 : ℚ), (0 : ℚ)) := rfl
    rw [g1, g2]
    refine lt_of_le_of_lt
      (neg_nonpos_of_nonneg (mul_nonneg (normR_nonneg _) (normR_nonneg _))) ?_
    norm_num [dotR, toR, Prod.fst_sub, Prod.snd_sub]

/-- C2: while drawing, a secondary (right) click with at least three
buffered points appends exactly one polygon built from the buffer with the
pending density, selects it, discards the buffer and leaves Drawing; with
fewer than three points the whole state is unchanged (still Drawing). -/
theorem C2_commit_draw_buffer (tr : Pt → Pt2)
    (containsPt : List Pt2 → Pt2 → Bool) (s : MState) (buf : List Pt)
    (x y : ℝ) (xd zd : ℚ)
    (hdraw : s.drawing = true) (hbuf : s.xy = some buf) :
    (3 ≤ buf.length →
      (step tr containsPt s (MEvent.press 3 x y xd zd true)).polygons =
          s.polygons ++ [closePoly buf] ∧
      (step tr containsPt s (MEvent.press 3 x y xd zd true)).densities =
          s.densities ++ [s.density] ∧
      (step tr containsPt s (MEvent.press 3 x y xd zd true)).ipoly =
          some s.polygons.length ∧
      (step tr containsPt s (MEvent.press 3 x y xd zd true)).xy = none ∧
      (step tr containsPt s (MEvent.press 3 x y xd zd true)).drawing = false) ∧
    (buf.length < 3 →
      step tr containsPt s (MEvent.press 3 x y xd zd true) = s) := by
  constructor
  · intro hlen
    simp [step, button_press_callback, hdraw, hbuf, hlen]
  · intro hlen
    simp [step, button_press_callback, hdraw, hbuf, not_le.mpr hlen]

/-- Witness for C2: committing the three-point buffer of `drawState`
appends exactly that polygon. -/
theorem C2_witness :
    (step toR (fun _ _ => false) drawState (MEvent.press 3 0 0 0 0 true)).polygons =
      drawState.polygons ++ [closePoly [(0, 0), (10, 0), (5, 10)]] ∧
    (step toR (fun _ _ => false) drawState (MEvent.press 3 0 0 0 0 true)).densities =
      drawState.densities ++ [drawState.density] := by
  have h := C2_commit_draw_buffer toR (fun _ _ => false) drawState
    [(0, 0), (10, 0), (5, 10)] 0 0 0 0 rfl rfl
  exact ⟨(h.1 (by norm_num)).1, (h.1 (by norm_num)).2.1⟩

theorem removeVerts_enumFrom : ∀ (l : List Pt) (k v : ℕ),
    ((List.enumFrom k l).filter (fun iq => iq.1 ∉ [v])).map (fun iq => iq.2) =
      if k ≤ v then l.eraseIdx (v - k) else l := by
  intro l
  induction l with
  | nil =>
    intro k v
    simp [List.eraseIdx]
  | cons a t ih =>
    intro k v
    rw [List.enumFrom]
    by_cases hkv : k = v
    · subst hkv
      rw [List.filter_cons, if_neg (by simp)]
      rw [ih (k + 1) k]
      rw [if_neg (by omega), if_pos (le_refl k)]
      simp
    · rw [List.filter_cons, if_pos (by simp [hkv])]
      rw [List.map_cons, ih (k + 1) v]
      by_cases hk1 : k + 1 ≤ v
      · rw [if_pos hk1, if_pos (by omega)]
        have hvk : v - k = (v - (k + 1)) + 1 := by omega
        rw [hvk]
        rfl
      · rw [if_neg hk1, if_neg (by omega)]

/-- Removing the single selected vertex `[v]` via the source's
list-comprehension equals `List.eraseIdx`. -/
theorem removeVerts_single (l : List Pt) (v : ℕ) :
    removeVerts [v] l = l.eraseIdx v := by
  rw [removeVerts]
  have h : l.enum = List.enumFrom 0 l := rfl
  rw [h, removeVerts_enumFrom l 0 v, if_pos (Nat.zero_le v)]
  simp

/-- `set_xy` does not re-close an array that is already closed. -/
theorem closePoly_eq_self (l : List Pt) (h : l.head? = l.getLast?) :
    closePoly l = l := by
  rw [closePoly, if_neg]
  rintro ⟨_, hne⟩
  exact hne h

/-- Counterexample to C4 as stated: the triangle's closed array has
N = 4 ≥ 4 entries and vertex 1 (non-seam) is selected, yet the delete
command leaves the state untouched — the vertex count stays 4, not N − 1. -/
theorem C4_counterexample :
    4 ≤ (triState.polygons.getD 0 []).length ∧
    triState.ivert = some [1] ∧ (1 : ℕ) ≠ 0 ∧
    (1 : ℕ) ≠ (triState.polygons.getD 0 []).length - 1 ∧
    step toR (fun _ _ => false) triState MEvent.keyD = triState ∧
    ((step toR (fun _ _ => false) triState MEvent.keyD).polygons.getD 0 []).length ≠
      (triState.polygons.getD 0 []).length - 1 := by
  refine ⟨by decide, rfl, by decide, by decide, rfl, ?_⟩
  have hs : step toR (fun _ _ => false) triState MEvent.keyD = triState := rfl
  rw [hs]
  decide

/-- C4 (amended): for a polygon whose closed vertex array has at least 5
entries (so at least 4 distinct vertices) and a selected non-seam vertex,
the delete command removes exactly that entry — the polygon keeps its
other coordinates (shifted), every other polygon is untouched and the
densities are untouched. -/
theorem C4_delete_vertex_amended (tr : Pt → Pt2) (c : List Pt2 → Pt2 → Bool)
    (s : MState) (p v : ℕ)
    (hdraw : s.drawing = false)
    (hv : s.ivert = some [v])
    (hp : s.ipoly = some p)
    (hN : 5 ≤ (s.polygons.getD p []).length)
    (hv0 : v ≠ 0)
    (hvlast : v ≠ (s.polygons.getD p []).length - 1)
    (hvlt : v < (s.polygons.getD p []).length)
    (hclosed : (s.polygons.getD p []).head? = (s.polygons.getD p []).getLast?) :
    (step tr c s MEvent.keyD).polygons =
        s.polygons.set p ((s.polygons.getD p []).eraseIdx v) ∧
    ((s.polygons.getD p []).eraseIdx v).length =
        (s.polygons.getD p []).length - 1 ∧
    (∀ j, j < v →
      ((s.polygons.getD p []).eraseIdx v)[j]? = (s.polygons.getD p [])[j]?) ∧
    (∀ j, v ≤ j →
      ((s.polygons.getD p []).eraseIdx v)[j]? = (s.polygons.getD p [])[j + 1]?) ∧
    (step tr c s MEvent.keyD).densities = s.densities ∧
    (∀ q, q ≠ p → (step tr c s MEvent.keyD).polygons[q]? = s.polygons[q]?) := by
  have hlen2 : ((s.polygons.getD p []).eraseIdx v).length =
      (s.polygons.getD p []).length - 1 := by
    rw [List.length_eraseIdx, if_pos hvlt]
  have hclose : closePoly (removeVerts [v] (s.polygons.getD p [])) =
      (s.polygons.getD p []).eraseIdx v := by
    rw [removeVerts_single]
    apply closePoly_eq_self
    rw [List.head?_eq_getElem?, List.getLast?_eq_getElem?,
      List.getElem?_eraseIdx_of_lt _ _ _ (Nat.pos_of_ne_zero hv0), hlen2,
      List.getElem?_eraseIdx_of_ge _ _ _ (by omega)]
    have he : (s.polygons.getD p []).length - 1 - 1 + 1 =
        (s.polygons.getD p []).length - 1 := by omega
    rw [he]
    rw [List.head?_eq_getElem?, List.getLast?_eq_getElem?] at hclosed
    exact hclosed
  have hstep : step tr c s MEvent.keyD =
      { s with
        polygons := s.polygons.set p ((s.polygons.getD p []).eraseIdx v)
        lines := s.lines.set p ((s.polygons.getD p []).eraseIdx v)
        ivert := none } := by
    have hstep0 : step tr c s MEvent.keyD = delete_polygon s := rfl
    rw [hstep0, delete_polygon]
    rw [if_neg (by simp [hdraw]), if_pos (by simp [hv])]
    simp only [hp, hv, Option.getD_some]
    rw [if_pos (by omega), hclose]
  refine ⟨by rw [hstep], hlen2,
    fun j hj => List.getElem?_eraseIdx_of_lt _ _ _ hj,
    fun j hj => List.getElem?_eraseIdx_of_ge _ _ _ hj,
    by rw [hstep], ?_⟩
  intro q hq
  rw [hstep]
  exact List.getElem?_set_ne (Ne.symm hq)

/-- Witness for the amended C4: deleting vertex 1 of the closed unit
square removes exactly one entry. -/
theorem C4_witness :
    (step toR (fun _ _ => false) sqState MEvent.keyD).polygons =
      sqState.polygons.set 0 ((sqState.polygons.getD 0 []).eraseIdx 1) ∧
    ((sqState.polygons.getD 0 []).eraseIdx 1).length =
      (sqState.polygons.getD 0 []).length - 1 := by
  have h := C4_delete_vertex_amended toR (fun _ _ => false) sqState 0 1 rfl rfl rfl
    (by decide) (by decide) (by decide) (by decide) (by decide)
  exact ⟨h.1, h.2.1⟩

/-- C5: the delete command on a polygon whose closed vertex array has
exactly 4 entries (a triangle — the minimum) with a vertex selected is a
complete no-op: the state, in particular the polygon list and densities,
is returned unchanged and no error is raised (the embedding is total). -/
theorem C5_delete_min_noop (tr : Pt → Pt2) (c : List Pt2 → Pt2 → Bool)
    (s : MState) (p : ℕ) (vs : List ℕ)
    (hdraw : s.drawing = false)
    (hv : s.ivert = some vs)
    (hp : s.ipoly = some p)
    (hlen : (s.polygons.getD p []).length = 4) :
    step tr c s MEvent.keyD = s := by
  have hstep0 : step tr c s MEvent.keyD = delete_polygon s := rfl
  rw [hstep0, delete_polygon]
  rw [if_neg (by simp [hdraw]), if_pos (by simp [hv])]
  simp only [hp, hv, Option.getD_some]
  rw [if_neg (by omega)]

/-- Witness for C5: deleting at the 4-entry triangle leaves the state
identical. -/
theorem C5_witness : step toR (fun _ _ => false) triState MEvent.keyD = triState :=
  C5_delete_min_noop toR (fun _ _ => false) triState 0 [1] rfl rfl rfl (by decide)

/-- Counterexample to C6 as stated: cancel in a Selected state (armed flag
clear, not drawing) does not clear the selection — `_ipoly` stays `some 0`
instead of becoming `none`. -/
theorem C6_counterexample :
    selState.addVertex = false ∧ selState.drawing = false ∧
    selState.ipoly = some 0 ∧
    (step toR (fun _ _ => false) selState MEvent.keyEsc).ipoly = some 0 :=
  ⟨rfl, rfl, rfl, rfl⟩

/-- C6 (amended): the cancel command clears only the armed flag when it is
set; otherwise it discards the draw buffer and exits Drawing — and in that
branch the current selection (`_ipoly`, `_ivert`) is left unchanged, not
cleared. -/
theorem C6_cancel_behavior (tr : Pt → Pt2) (c : List Pt2 → Pt2 → Bool)
    (s : MState) :
    (s.addVertex = true →
      step tr c s MEvent.keyEsc = { s with addVertex := false }) ∧
    (s.addVertex = false →
      step tr c s MEvent.keyEsc =
        { s with
          drawing := false
          xy := some []
          drawingPlot := none } ∧
      (step tr c s MEvent.keyEsc).ipoly = s.ipoly ∧
      (step tr c s MEvent.keyEsc).ivert = s.ivert) := by
  have hstep0 : step tr c s MEvent.keyEsc = cancel_drawing s := rfl
  constructor
  · intro h
    rw [hstep0, cancel_drawing, if_pos h]
  · intro h
    have hs : cancel_drawing s =
        { s with
          drawing := false
          xy := some []
          drawingPlot := none } := by
      rw [cancel_drawing, if_neg (by simp [h])]
    exact ⟨by rw [hstep0, hs], by rw [hstep0, hs], by rw [hstep0, hs]⟩

/-- Witness for the amended C6: cancelling at `selState` keeps the
selection. -/
theorem C6_witness :
    selState.addVertex = false ∧
    (step toR (fun _ _ => false) selState MEvent.keyEsc).ipoly = selState.ipoly :=
  ⟨rfl, ((C6_cancel_behavior toR (fun _ _ => false) selState).2 rfl).2.1⟩

/-- A mouse press never changes the add-vertex flag. -/
theorem button_press_callback_addVertex (tr : Pt → Pt2)
    (c : List Pt2 → Pt2 → Bool) (s : MState) (b : ℕ) (x y : ℝ)
    (xd zd : ℚ) (inax : Bool) :
    (button_press_callback tr c s b x y xd zd inax).addVertex = s.addVertex := by
  simp only [button_press_callback]
  repeat' first
  | rfl
  | split

/-- Counterexample to C7 as stated: after an armed insertion click (press
followed by release inside the model axes), the add-vertex flag is false —
the release auto-clears it without any toggle. -/
theorem C7_counterexample :
    armedState.addVertex = true ∧ armedState.ipoly = some 0 ∧
    (step toR (fun _ _ => false)
        (step toR (fun _ _ => false) armedState (MEvent.press 1 0 0 (1/2) 0 true))
        (MEvent.release 1 true)).addVertex = false :=
  ⟨rfl, rfl, rfl⟩

/-- C7 (amended): an armed insertion press leaves the mode armed through
the press itself, but the primary release that completes the click
auto-clears the armed flag, so a further insertion needs re-arming;
toggling the mode off likewise disarms. -/
theorem C7_release_auto_disarms (tr : Pt → Pt2) (c : List Pt2 → Pt2 → Bool)
    (s : MState) (x y : ℝ) (xd zd : ℚ)
    (harm : s.addVertex = true) :
    (step tr c s (MEvent.press 1 x y xd zd true)).addVertex = true ∧
    (step tr c (step tr c s (MEvent.press 1 x y xd zd true))
      (MEvent.release 1 true)).addVertex = false := by
  have h1 : (step tr c s (MEvent.press 1 x y xd zd true)).addVertex = true := by
    have h0 : step tr c s (MEvent.press 1 x y xd zd true) =
        button_press_callback tr c s 1 x y xd zd true := rfl
    rw [h0, button_press_callback_addVertex, harm]
  refine ⟨h1, ?_⟩
  have h0 : step tr c (step tr c s (MEvent.press 1 x y xd zd true))
      (MEvent.release 1 true) =
      button_release_callback (step tr c s (MEvent.press 1 x y xd zd true))
        1 true := rfl
  rw [h0, button_release_callback]
  rw [if_neg (by simp), if_neg (by simp)]
  simp only [h1, if_true]
  split <;> rfl

/-- Witness for the amended C7 at the concrete armed state. -/
theorem C7_witness :
    armedState.addVertex = true ∧
    (step toR (fun _ _ => false) armedState (MEvent.press 1 0 0 (1/2) 0 true)).addVertex
      = true ∧
    (step toR (fun _ _ => false)
        (step toR (fun _ _ => false) armedState (MEvent.press 1 0 0 (1/2) 0 true))
        (MEvent.release 1 true)).addVertex = false := by
  have h := C7_release_auto_disarms toR (fun _ _ => false) armedState 0 0 (1/2) 0 rfl
  exact ⟨rfl, h.1, h.2⟩

theorem getD_set_self {α : Type} (l : List α) (p : ℕ) (a d : α)
    (hp : p < l.length) : (l.set p a).getD p d = a := by
  rw [List.getD_eq_getElem?_getD, List.getElem?_set_self hp, Option.getD_some]

/-- Translating both points of a pair by the same delta keeps their
Euclidean distance. -/
theorem distR_translate (a b d : Pt) :
    distR (a.1 + d.1, a.2 + d.2) (b.1 + d.1, b.2 + d.2) = distR a b := by
  rw [distR, distR]
  congr 1
  push_cast
  ring

/-- Reading one slot of the fancy-indexing write
`xy[verts] = (xdata, ydata)`. -/
theorem enum_overwrite_getD (l : List Pt) (verts : List ℕ) (q0 : Pt) (j : ℕ)
    (hj : j < l.length) :
    (l.enum.map (fun iq => if iq.1 ∈ verts then q0 else iq.2)).getD j (0, 0) =
      if j ∈ verts then q0 else l.getD j (0, 0) := by
  have hj1 : j < l.enum.length := by simpa [List.enum_length] using hj
  have hj2 : j < (l.enum.map
      (fun iq => if iq.1 ∈ verts then q0 else iq.2)).length := by
    simpa using hj1
  rw [List.getD_eq_getElem?_getD, List.getElem?_eq_getElem hj2, Option.getD_some,
    List.getElem_map, List.getElem_enum]
  by_cases hmem : j ∈ verts
  · simp [hmem]
  · simp only [hmem, if_false]
    rw [List.getD_eq_getElem?_getD, List.getElem?_eq_getElem hj, Option.getD_some]

/-- C8: a move event during a whole-polygon drag (polygon selected, no
vertex selected) translates every vertex of that polygon by exactly the
delta between the current and previous event positions, so all pairwise
vertex distances of the polygon are unchanged. -/
theorem C8_drag_translates (tr : Pt → Pt2) (c : List Pt2 → Pt2 → Bool)
    (s : MState) (p : ℕ) (le : Pt) (xd zd : ℚ)
    (hp : s.ipoly = some p) (hplen : p < s.polygons.length)
    (hv : s.ivert = none) (harm : s.addVertex = false)
    (hle : s.lastevent = some le) :
    (step tr c s (MEvent.move (some 1) xd zd true)).polygons.getD p [] =
      (s.polygons.getD p []).map
        (fun v => (v.1 + (xd - le.1), v.2 + (zd - le.2))) ∧
    (∀ j k, j < (s.polygons.getD p []).length →
      k < (s.polygons.getD p []).length →
      distR
        (((step tr c s (MEvent.move (some 1) xd zd true)).polygons.getD p []).getD
          j (0, 0))
        (((step tr c s (MEvent.move (some 1) xd zd true)).polygons.getD p []).getD
          k (0, 0)) =
      distR ((s.polygons.getD p []).getD j (0, 0))
        ((s.polygons.getD p []).getD k (0, 0))) := by
  have h0 : step tr c s (MEvent.move (some 1) xd zd true) =
      mouse_move_callback s (some 1) xd zd true := rfl
  have hs : mouse_move_callback s (some 1) xd zd true =
      { s with
        polygons := s.polygons.set p ((s.polygons.getD p []).map
          (fun v => (v.1 + (xd - le.1), v.2 + (zd - le.2))))
        lines := s.lines.set p ((s.polygons.getD p []).map
          (fun v => (v.1 + (xd - le.1), v.2 + (zd - le.2))))
        lastevent := some (xd, zd) } := by
    rw [mouse_move_callback]
    rw [if_neg (by simp), if_neg (by simp), if_neg (by simp [hp]),
      if_neg (by simp [harm])]
    simp only [hp, hv, hle, Option.getD_some]
  have hpoly : (step tr c s (MEvent.move (some 1) xd zd true)).polygons.getD p [] =
      (s.polygons.getD p []).map
        (fun v => (v.1 + (xd - le.1), v.2 + (zd - le.2))) := by
    rw [h0, hs]
    exact getD_set_self _ _ _ _ hplen
  refine ⟨hpoly, ?_⟩
  intro j k hj hk
  rw [hpoly,
    getD_map_of_lt (fun v : Pt => (v.1 + (xd - le.1), v.2 + (zd - le.2))) _ j hj
      (0, 0) (0, 0),
    getD_map_of_lt (fun v : Pt => (v.1 + (xd - le.1), v.2 + (zd - le.2))) _ k hk
      (0, 0) (0, 0)]
  exact distR_translate _ _ (xd - le.1, zd - le.2)

/-- Witness for C8 at the concrete drag state. -/
theorem C8_witness :
    (step toR (fun _ _ => false) dragState
        (MEvent.move (some 1) 3 4 true)).polygons.getD 0 [] =
      (dragState.polygons.getD 0 []).map
        (fun v => (v.1 + (3 - ((0 : ℚ), (0 : ℚ)).1), v.2 + (4 - ((0 : ℚ), (0 : ℚ)).2))) := by
  have h := C8_drag_translates toR (fun _ _ => false) dragState 0 (0, 0) 3 4
    rfl (by decide) rfl rfl rfl
  exact h.1

/-- C9: a move event while the seam pair `[0, last]` is the selected
vertex writes the new pointer coordinate into both slot 0 and slot last of
the polygon's closed vertex array. -/
theorem C9_seam_drag_updates_both (tr : Pt → Pt2) (c : List Pt2 → Pt2 → Bool)
    (s : MState) (p : ℕ) (xd zd : ℚ)
    (hp : s.ipoly = some p) (hplen : p < s.polygons.length)
    (hv : s.ivert = some [0, (s.polygons.getD p []).length - 1])
    (harm : s.addVertex = false)
    (hlen : 1 ≤ (s.polygons.getD p []).length) :
    ((step tr c s (MEvent.move (some 1) xd zd true)).polygons.getD p []).getD
        0 (0, 0) = (xd, zd) ∧
    ((step tr c s (MEvent.move (some 1) xd zd true)).polygons.getD p []).getD
        ((s.polygons.getD p []).length - 1) (0, 0) = (xd, zd) := by
  have h0 : step tr c s (MEvent.move (some 1) xd zd true) =
      mouse_move_callback s (some 1) xd zd true := rfl
  have hs : mouse_move_callback s (some 1) xd zd true =
      { s with
        polygons := s.polygons.set p ((s.polygons.getD p []).enum.map
          (fun iq => if iq.1 ∈ [0, (s.polygons.getD p []).length - 1]
            then (xd, zd) else iq.2))
        lines := s.lines.set p ((s.polygons.getD p []).enum.map
          (fun iq => if iq.1 ∈ [0, (s.polygons.getD p []).length - 1]
            then (xd, zd) else iq.2))
        lastevent := some (xd, zd) } := by
    rw [mouse_move_callback]
    rw [if_neg (by simp), if_neg (by simp), if_neg (by simp [hp]),
      if_neg (by simp [harm])]
    simp only [hp, hv, Option.getD_some]
  have hpoly : (step tr c s (MEvent.move (some 1) xd zd true)).polygons.getD p [] =
      (s.polygons.getD p []).enum.map
        (fun iq => if iq.1 ∈ [0, (s.polygons.getD p []).length - 1]
          then (xd, zd) else iq.2) := by
    rw [h0, hs]
    exact getD_set_self _ _ _ _ hplen
  constructor
  · rw [hpoly, enum_overwrite_getD _ _ _ 0 (by omega)]
    simp
  · rw [hpoly, enum_overwrite_getD _ _ _ _ (by omega)]
    simp

/-- Witness for C9: dragging the seam of the unit square writes (7, 8)
into both slot 0 and slot 4. -/
theorem C9_witness :
    ((step toR (fun _ _ => false) seamState
        (MEvent.move (some 1) 7 8 true)).polygons.getD 0 []).getD 0 (0, 0) = (7, 8) ∧
    ((step toR (fun _ _ => false) seamState
        (MEvent.move (some 1) 7 8 true)).polygons.getD 0 []).getD 4 (0, 0) = (7, 8) := by
  have h := C9_seam_drag_updates_both toR (fun _ _ => false) seamState 0 7 8
    rfl (by decide) rfl rfl (by decide)
  exact ⟨h.1, h.2⟩

theorem firstContainingFrom_lt (c : List Pt2 → Pt2 → Bool) (e : Pt2) :
    ∀ (l : List (List Pt2)) (i k : ℕ),
      firstContainingFrom c e i l = some k → k < i + l.length := by
  intro l
  induction l with
  | nil =>
    intro i k h
    simp [firstContainingFrom] at h
  | cons sp tl ih =>
    intro i k h
    rw [firstContainingFrom] at h
    split at h
    · have hik : i = k := by injection h
      simp [← hik]
    · have := ih (i + 1) k h
      simp only [List.length_cons]
      omega

/-- The hit test returns an in-bounds polygon index, and returns a vertex
only together with a polygon. -/
theorem get_polygon_vertice_id_bounds (c : List Pt2 → Pt2 → Bool)
    (polys : List (List Pt2)) (e : Pt2) (hne : polys ≠ []) :
    (∀ k, (get_polygon_vertice_id c polys e).1 = some k → k < polys.length) ∧
    ((get_polygon_vertice_id c polys e).2 ≠ none →
      (get_polygon_vertice_id c polys e).1 ≠ none) := by
  have hDSne : polyMins e polys ≠ [] := by simpa [polyMins] using hne
  have hP : argminIdx (polyMins e polys) < polys.length := by
    have := argminIdx_lt_length _ hDSne
    simpa [polyMins] using this
  rw [get_polygon_vertice_id]
  split
  · constructor
    · intro k hk
      have hk' : firstContaining c polys e = some k := hk
      have := firstContainingFrom_lt c e polys 0 k hk'
      simpa using this
    · intro h2
      exact absurd rfl h2
  · rw [seamSub]
    split
    · constructor
      · intro k hk
        have hk' : some (argminIdx (polyMins e polys)) = some k := hk
        have hkeq : argminIdx (polyMins e polys) = k := by injection hk'
        omega
      · intro _
        simp
    · constructor
      · intro k hk
        have hk' : some (argminIdx (polyMins e polys)) = some k := hk
        have hkeq : argminIdx (polyMins e polys) = k := by injection hk'
        omega
      · intro _
        simp

theorem length_eraseIdx_insertIdx {α : Type} (l : List α) (p : ℕ) (a : α)
    (hp : p < l.length) :
    ((l.eraseIdx p).insertIdx p a).length = l.length := by
  rw [List.length_insertIdx _ _ (by rw [List.length_eraseIdx, if_pos hp]; omega),
    List.length_eraseIdx, if_pos hp]
  omega

theorem Inv_new_polygon (s : MState) (h : MInv s) : MInv (new_polygon s) := by
  obtain ⟨h1, h2, h3, h4⟩ := h
  exact ⟨h1, h2, fun hc => absurd rfl hc, fun p hp => by simp [new_polygon] at hp⟩

theorem Inv_cancel_drawing (s : MState) (h : MInv s) : MInv (cancel_drawing s) := by
  obtain ⟨h1, h2, h3, h4⟩ := h
  rw [cancel_drawing]
  split
  · exact ⟨h1, h2, h3, h4⟩
  · exact ⟨h1, h2, h3, h4⟩

theorem Inv_add_vertex (s : MState) (h : MInv s) : MInv (add_vertex s) := h

theorem Inv_set_error (s : MState) (v : ℚ) (h : MInv s) : MInv (set_error s v) := h

theorem Inv_set_density (s : MState) (v : ℚ) (h : MInv s) :
    MInv (set_density s v) := by
  obtain ⟨h1, h2, h3, h4⟩ := h
  rw [set_density]
  split
  · exact ⟨h1, by simpa [List.length_set] using h2, h3, h4⟩
  · exact ⟨h1, h2, h3, h4⟩

theorem Inv_delete_polygon (s : MState) (h : MInv s) : MInv (delete_polygon s) := by
  obtain ⟨h1, h2, h3, h4⟩ := h
  rw [delete_polygon]
  split
  · exact ⟨h1, h2, h3, h4⟩
  split
  · simp only []
    split
    · refine ⟨?_, ?_, ?_, ?_⟩
      · simpa [List.length_set] using h1
      · simpa [List.length_set] using h2
      · intro hc
        exact absurd rfl hc
      · intro p hp
        have := h4 p hp
        simpa [List.length_set] using this
    · exact ⟨h1, h2, h3, h4⟩
  simp only []
  split
  · rename_i hnv hip
    have hvnone : s.ivert = none := by
      by_contra hc
      exact hnv hc
    obtain ⟨p0, hp0⟩ : ∃ p0, s.ipoly = some p0 := by
      cases hq : s.ipoly with
      | none => exact absurd hq hip
      | some q => exact ⟨q, rfl⟩
    have hplt : p0 < s.polygons.length := h4 p0 hp0
    refine ⟨?_, ?_, ?_, ?_⟩
    · simp only [hp0, Option.getD_some, List.length_eraseIdx, h1, h2]
    · simp only [hp0, Option.getD_some, List.length_eraseIdx, h1, h2]
    · intro hc
      have hc' : s.ivert ≠ none := hc
      exact absurd hvnone hc'
    · intro p hp
      have hp' : (none : Option ℕ) = some p := hp
      exact absurd hp' (by simp)
  · exact ⟨h1, h2, h3, h4⟩

theorem Inv_button_release (s : MState) (b : ℕ) (inax : Bool) (h : MInv s) :
    MInv (button_release_callback s b inax) := by
  obtain ⟨h1, h2, h3, h4⟩ := h
  rw [button_release_callback]
  split
  · exact ⟨h1, h2, h3, h4⟩
  split
  · exact ⟨h1, h2, h3, h4⟩
  by_cases ha : s.addVertex = true
  · rw [if_pos ha]
    simp only []
    split
    · exact ⟨h1, h2, h3, h4⟩
    · exact ⟨h1, h2, fun hc => absurd rfl hc, h4⟩
  · rw [if_neg ha]
    simp only []
    split
    · exact ⟨h1, h2, h3, h4⟩
    · exact ⟨h1, h2, fun hc => absurd rfl hc, h4⟩

theorem Inv_mouse_move (s : MState) (b : Option ℕ) (xd zd : ℚ) (inax : Bool)
    (h : MInv s) : MInv (mouse_move_callback s b xd zd inax) := by
  obtain ⟨h1, h2, h3, h4⟩ := h
  rw [mouse_move_callback]
  split
  · exact ⟨h1, h2, h3, h4⟩
  split
  · exact ⟨h1, h2, h3, h4⟩
  split
  · exact ⟨h1, h2, h3, h4⟩
  split
  · exact ⟨h1, h2, h3, h4⟩
  refine ⟨?_, ?_, ?_, ?_⟩
  · simpa [List.length_set] using h1
  · simpa [List.length_set] using h2
  · intro hc
    exact h3 hc
  · intro p hp
    have := h4 p hp
    simpa [List.length_set] using this

theorem Inv_button_press (tr : Pt → Pt2) (c : List Pt2 → Pt2 → Bool)
    (s : MState) (b : ℕ) (x y : ℝ) (xd zd : ℚ) (inax : Bool) (h : MInv s) :
    MInv (button_press_callback tr c s b x y xd zd inax) := by
  obtain ⟨h1, h2, h3, h4⟩ := h
  rw [button_press_callback]
  split
  · exact ⟨h1, h2, h3, h4⟩
  split
  · rename_i hcond
    obtain ⟨hb1, hnd, hpne⟩ := hcond
    simp only []
    split
    · have hmapne : s.polygons.map (fun poly => poly.map tr) ≠ [] := by
        simpa using hpne
      have hb := get_polygon_vertice_id_bounds c
        (s.polygons.map (fun poly => poly.map tr)) (x, y) hmapne
      refine ⟨h1, h2, ?_, ?_⟩
      · intro hvne
        exact hb.2 hvne
      · intro p hp
        have := hb.1 p hp
        simpa using this
    · split
      · rename_i p hp
        have hplt : p < s.polygons.length := h4 p hp
        have hllt : p < s.lines.length := by omega
        refine ⟨?_, ?_, ?_, ?_⟩
        · rw [length_eraseIdx_insertIdx _ _ _ hllt,
            length_eraseIdx_insertIdx _ _ _ hplt]
          exact h1
        · rw [length_eraseIdx_insertIdx _ _ _ hplt]
          exact h2
        · intro hc
          exact h3 hc
        · intro q hq
          have := h4 q hq
          rw [length_eraseIdx_insertIdx _ _ _ hplt]
          exact this
      · exact ⟨h1, h2, h3, h4⟩
  split
  · split
    · exact ⟨h1, h2, h3, h4⟩
    split
    · split
      · refine ⟨?_, ?_, ?_, ?_⟩
        · simp [h1]
        · simp [h2]
        · intro _
          simp
        · intro p hp
          have hp' : s.polygons.length = p := by injection hp
          simp [← hp']
      · exact ⟨h1, h2, h3, h4⟩
    · exact ⟨h1, h2, h3, h4⟩
  · exact ⟨h1, h2, h3, h4⟩

/-- C10: the selection invariant — a selected vertex implies a selected
polygon whose index is valid for the polygons, lines and densities lists —
holds initially and is preserved by every event, so the unguarded
`self.polygons[self._ipoly]` indexing in the move and delete handlers
stays in bounds. -/
theorem C10_selection_invariant (tr : Pt → Pt2) (c : List Pt2 → Pt2 → Bool) :
    MInv initState ∧ ∀ (s : MState) (e : MEvent), MInv s → MInv (step tr c s e) := by
  constructor
  · exact ⟨rfl, rfl, fun hc => absurd rfl hc, fun p hp => by simp [initState] at hp⟩
  · intro s e h
    cases e with
    | press b x y xd zd inax => exact Inv_button_press tr c s b x y xd zd inax h
    | release b inax => exact Inv_button_release s b inax h
    | move b xd zd inax => exact Inv_mouse_move s b xd zd inax h
    | keyD => exact Inv_delete_polygon s h
    | keyN => exact Inv_new_polygon s h
    | keyEsc => exact Inv_cancel_drawing s h
    | keyR => exact h
    | keyA => exact Inv_add_vertex s h
    | setDensity v => exact Inv_set_density s v h
    | setError v => exact Inv_set_error s v h

/-- Witness for C10: the invariant holds at the initial state and is kept
by a concrete event. -/
theorem C10_witness :
    MInv initState ∧ MInv (step toR (fun _ _ => false) initState MEvent.keyN) := by
  have h := C10_selection_invariant toR (fun _ _ => false)
  refine ⟨h.1, h.2 initState MEvent.keyN ?_⟩
  exact ⟨rfl, rfl, fun hc => absurd rfl hc, fun p hp => by simp [initState] at hp⟩

/-- Witness for C1 at a concrete one-polygon configuration. -/
theorem C1_witness :
    ([[((0 : ℝ), (0 : ℝ))]] : List (List Pt2)) ≠ [] ∧
    (∀ sp ∈ ([[((0 : ℝ), (0 : ℝ))]] : List (List Pt2)), sp ≠ []) ∧
    get_polygon_vertice_id (fun _ _ => false) [[((0 : ℝ), (0 : ℝ))]] (10, 10) =
      hitTestSpec (fun _ _ => false) [[((0 : ℝ), (0 : ℝ))]] (10, 10) := by
  refine ⟨by simp, ?_, ?_⟩
  · intro sp hsp
    rw [List.mem_singleton] at hsp
    subst hsp
    simp
  · refine C1_hit_test_resolution (fun _ _ => false) _ _ (by simp) ?_
    intro sp hsp
    rw [List.mem_singleton] at hsp
    subst hsp
    simp
